import Mathlib

/-!
Verification development for the blueoil quantized kn2row convolution core.

The repository sources under study are:
* `src/dlk/python/dlk/templates/include/func/impl/quantized_conv2d_kn2row.h`
  — declarations of `quantized_ohwi_to_hwoi`, `QuantizedConv2DKn2Row` and the
  packed element / tensor-view type aliases;
* `src/unnamed/part_000` — the Jinja template `scaling_factors.h` that
  generates per-operator dequantization constants.

The header declares the engine but its implementation translation unit is not
among the sources, so the operational definitions below are modelled from the
specification (each such definition says so in its doc comment).  All machine
integers are modelled as `Nat` with explicit `% 2 ^ w` where overflow matters.
-/

namespace Blueoil

open Finset

/-- Modelled from the spec: `binary_convolution_parameters` as consumed by the
kn2row engine — kernel height/width, input spatial extents, input/output
channel counts, stride and padding (spec §3 "Convolution Parameters"). -/
structure ConvParams where
  kh : Nat
  kw : Nat
  ih : Nat
  iw : Nat
  ic : Nat
  oc : Nat
  stride : Nat
  pad : Nat
deriving DecidableEq, Repr

/-- Output height by the standard convolution output-shape formula
(spec §4.3: "sized by the standard convolution output-shape formula"). -/
def ConvParams.outH (p : ConvParams) : Nat :=
  (p.ih + 2 * p.pad - p.kh) / p.stride + 1

/-- Output width by the standard convolution output-shape formula. -/
def ConvParams.outW (p : ConvParams) : Nat :=
  (p.iw + 2 * p.pad - p.kw) / p.stride + 1

/-- The vertical source coordinate read by kernel tap row `ky` at output row
`oy`: `oy * stride + ky - pad` (clipped at zero by `Nat` subtraction; the
in-bounds guard below makes the clipped case irrelevant). -/
def srcY (p : ConvParams) (oy ky : Nat) : Nat :=
  oy * p.stride + ky - p.pad

/-- The horizontal source coordinate read by kernel tap column `kx` at output
column `ox`. -/
def srcX (p : ConvParams) (ox kx : Nat) : Nat :=
  ox * p.stride + kx - p.pad

/-- Whether the shifted source position of tap `(ky, kx)` at output position
`(oy, ox)` lies inside the unpadded input (spec §4.3: "taps that would read
outside the padded input contribute zero and are skipped"). -/
def tapInBounds (p : ConvParams) (oy ox ky kx : Nat) : Prop :=
  p.pad ≤ oy * p.stride + ky ∧ srcY p oy ky < p.ih ∧
  p.pad ≤ ox * p.stride + kx ∧ srcX p ox kx < p.iw

instance (p : ConvParams) (oy ox ky kx : Nat) :
    Decidable (tapInBounds p oy ox ky kx) := by
  unfold tapInBounds; infer_instance

/-- Modelled from the spec: the direct sliding-window quantized convolution at
full unpacked integer precision — the primary correctness oracle (spec §8
"Equivalence").  For each output position it slides the `kh × kw` window and
sums a `kh·kw·ic`-deep dot product, with zero padding realised by skipping
out-of-bounds reads. -/
def directConv (p : ConvParams) (A : Nat → Nat → Nat → Nat)
    (K : Nat → Nat → Nat → Nat → Nat) (oy ox o : Nat) : Nat :=
  ∑ ky ∈ range p.kh, ∑ kx ∈ range p.kw, ∑ c ∈ range p.ic,
    if tapInBounds p oy ox ky kx then
      A (srcY p oy ky) (srcX p ox kx) c * K ky kx o c
    else 0

/-- Modelled from the spec: one 1x1 (pointwise) kernel application of tap
`(ky, kx)` at input position `(y, x)` for output channel `o` — a full
input-channels → output-channels reduction (spec §4.3). -/
def pointwise (p : ConvParams) (A : Nat → Nat → Nat → Nat)
    (K : Nat → Nat → Nat → Nat → Nat) (ky kx y x o : Nat) : Nat :=
  ∑ c ∈ range p.ic, A y x c * K ky kx o c

/-- Flat offset of logical position `(y, x, o)` in a feature map of width `w`
and channel count `oc` (row-major yxo order). -/
def encYXO (w oc y x o : Nat) : Nat :=
  (y * w + x) * oc + o

/-- Modelled from the spec: the materialized full-input-feature-map result of
the pointwise convolution for one kernel tap — "compute each of the K·K
pointwise convolutions over the *entire* input feature map" (spec §4.3).
Stored as a flat buffer in yxo order. -/
def pwFeatureMap (p : ConvParams) (A : Nat → Nat → Nat → Nat)
    (K : Nat → Nat → Nat → Nat → Nat) (ky kx : Nat) : List Nat :=
  (List.range (p.ih * p.iw * p.oc)).map fun j =>
    pointwise p A K ky kx (j / (p.iw * p.oc)) (j / p.oc % p.iw) (j % p.oc)

/-- Modelled from the spec: the contribution of kernel tap `(ky, kx)` to
output position `(oy, ox, o)`: the tap's full-map pointwise result read at the
spatially shifted source position when that position is inside the unpadded
input, and zero otherwise (output-index bounds clipping, spec §4.3). -/
def tapContrib (p : ConvParams) (A : Nat → Nat → Nat → Nat)
    (K : Nat → Nat → Nat → Nat → Nat) (ky kx oy ox o : Nat) : Nat :=
  if tapInBounds p oy ox ky kx then
    (pwFeatureMap p A K ky kx).getD
      (encYXO p.iw p.oc (srcY p oy ky) (srcX p ox kx) o) 0
  else 0

/-- Modelled from the spec: the kn2row convolution engine
(`QuantizedConv2DKn2Row`): treat the `kh × kw` kernel as `kh·kw` independent
1x1 kernels, compute each pointwise convolution over the entire input feature
map, and accumulate each resulting feature map into the output at the spatial
offset implied by that tap, with stride and padding applied via bounds
clipping (spec §4.3).  `A y x c` is the logical activation view,
`K ky kx o c` the kernel view in algorithm-native HWOI layout. -/
def kn2rowConv (p : ConvParams) (A : Nat → Nat → Nat → Nat)
    (K : Nat → Nat → Nat → Nat → Nat) (oy ox o : Nat) : Nat :=
  ∑ ky ∈ range p.kh, ∑ kx ∈ range p.kw, tapContrib p A K ky kx oy ox o

/-! Index lemmas for the materialized feature map. -/

theorem getD_range_map (n j : Nat) (f : Nat → Nat) (hj : j < n) :
    ((List.range n).map f).getD j 0 = f j := by
  rw [List.getD_eq_getElem?_getD, List.getElem?_map, List.getElem?_range hj]
  rfl

theorem encYXO_lt (w oc y x o ih : Nat) (hy : y < ih) (hx : x < w)
    (ho : o < oc) : encYXO w oc y x o < ih * w * oc := by
  unfold encYXO
  have h1 : y * w + x < ih * w := by
    calc y * w + x < y * w + w := by omega
    _ = (y + 1) * w := by ring
    _ ≤ ih * w := Nat.mul_le_mul_right w hy
  calc (y * w + x) * oc + o < (y * w + x) * oc + oc := by omega
  _ = (y * w + x + 1) * oc := by ring
  _ ≤ ih * w * oc := Nat.mul_le_mul_right oc h1

theorem decode_encYXO (w oc y x o : Nat) (hx : x < w) (ho : o < oc) :
    encYXO w oc y x o / (w * oc) = y ∧
    encYXO w oc y x o / oc % w = x ∧
    encYXO w oc y x o % oc = o := by
  have hw : 0 < w := Nat.lt_of_le_of_lt (Nat.zero_le x) hx
  have hoc : 0 < oc := Nat.lt_of_le_of_lt (Nat.zero_le o) ho
  unfold encYXO
  refine ⟨?_, ?_, ?_⟩
  · rw [show (y * w + x) * oc + o = (x * oc + o) + (w * oc) * y by ring]
    rw [Nat.add_mul_div_left _ _ (Nat.mul_pos hw hoc)]
    have hdiv : (x * oc + o) / (w * oc) = 0 := by
      apply Nat.div_eq_of_lt
      calc x * oc + o < x * oc + oc := by omega
      _ = (x + 1) * oc := by ring
      _ ≤ w * oc := Nat.mul_le_mul_right oc hx
    omega
  · rw [show (y * w + x) * oc + o = o + (y * w + x) * oc by ring,
      Nat.add_mul_div_right _ _ hoc, Nat.div_eq_of_lt ho, Nat.zero_add,
      Nat.mul_comm y w, Nat.mul_add_mod, Nat.mod_eq_of_lt hx]
  · rw [Nat.add_mod, Nat.mul_mod_left]
    simp [Nat.mod_eq_of_lt ho]

/-- For an in-range output channel, the tap contribution read from the
materialized pointwise feature map is the pointwise reduction at the shifted
source position (or zero when clipped). -/
theorem tapContrib_eq_pointwise (p : ConvParams) (A : Nat → Nat → Nat → Nat)
    (K : Nat → Nat → Nat → Nat → Nat) (ky kx oy ox o : Nat) (ho : o < p.oc) :
    tapContrib p A K ky kx oy ox o =
      if tapInBounds p oy ox ky kx then
        pointwise p A K ky kx (srcY p oy ky) (srcX p ox kx) o
      else 0 := by
  unfold tapContrib
  split
  case isTrue hIn =>
    obtain ⟨-, hy, -, hx⟩ := hIn
    unfold pwFeatureMap
    rw [getD_range_map _ _ _ (encYXO_lt p.iw p.oc _ _ _ p.ih hy hx ho)]
    obtain ⟨h1, h2, h3⟩ := decode_encYXO p.iw p.oc (srcY p oy ky) (srcX p ox kx) o hx ho
    rw [h1, h2, h3]
  case isFalse => rfl

/-- C1: the kn2row engine agrees with the direct sliding-window quantized
convolution at full unpacked integer precision, at every output position and
in-range output channel. -/
theorem kn2row_eq_direct (p : ConvParams) (A : Nat → Nat → Nat → Nat)
    (K : Nat → Nat → Nat → Nat → Nat) (oy ox o : Nat) (ho : o < p.oc) :
    kn2rowConv p A K oy ox o = directConv p A K oy ox o := by
  unfold kn2rowConv directConv
  refine Finset.sum_congr rfl fun ky _ => Finset.sum_congr rfl fun kx _ => ?_
  rw [tapContrib_eq_pointwise p A K ky kx oy ox o ho]
  split
  case isTrue => rfl
  case isFalse => exact (Finset.sum_const_zero).symm

/-- Witness for `kn2row_eq_direct` at a concrete non-trivial instance:
3x3 kernel, 4x4 input, 2 input channels, 2 output channels, stride 1,
padding 1. -/
theorem kn2row_eq_direct_witness :
    kn2rowConv ⟨3, 3, 4, 4, 2, 2, 1, 1⟩ (fun y x c => (y + 2 * x + c) % 4)
        (fun ky kx o c => (ky + kx * o + c) % 2) 1 2 1 =
      directConv ⟨3, 3, 4, 4, 2, 2, 1, 1⟩ (fun y x c => (y + 2 * x + c) % 4)
        (fun ky kx o c => (ky + kx * o + c) % 2) 1 2 1 :=
  kn2row_eq_direct ⟨3, 3, 4, 4, 2, 2, 1, 1⟩
    (fun y x c => (y + 2 * x + c) % 4)
    (fun ky kx o c => (ky + kx * o + c) % 2) 1 2 1 (by decide)

/-- C2: a 1-input-channel, 1-output-channel 3x3 kernel of all-ones 1-bit
weights, convolved at stride 1 with no padding over a 4x4 all-ones 1-bit
input, yields a 2x2 output whose every accumulator value is exactly 9,
before any scaling. -/
theorem kn2row_allones_3x3_is_nine :
    ConvParams.outH ⟨3, 3, 4, 4, 1, 1, 1, 0⟩ = 2 ∧
    ConvParams.outW ⟨3, 3, 4, 4, 1, 1, 1, 0⟩ = 2 ∧
    kn2rowConv ⟨3, 3, 4, 4, 1, 1, 1, 0⟩ (fun _ _ _ => 1) (fun _ _ _ _ => 1)
      0 0 0 = 9 ∧
    kn2rowConv ⟨3, 3, 4, 4, 1, 1, 1, 0⟩ (fun _ _ _ => 1) (fun _ _ _ _ => 1)
      0 1 0 = 9 ∧
    kn2rowConv ⟨3, 3, 4, 4, 1, 1, 1, 0⟩ (fun _ _ _ => 1) (fun _ _ _ _ => 1)
      1 0 0 = 9 ∧
    kn2rowConv ⟨3, 3, 4, 4, 1, 1, 1, 0⟩ (fun _ _ _ => 1) (fun _ _ _ _ => 1)
      1 1 0 = 9 := by
  decide

/-- C3: at stride 1, every out-of-bounds tap contributes exactly zero, and
the kn2row output is the sum of pointwise contributions over exactly the
in-bounds taps. -/
theorem kn2row_padding_clip (p : ConvParams) (A : Nat → Nat → Nat → Nat)
    (K : Nat → Nat → Nat → Nat → Nat) (oy ox ky kx o : Nat)
    (_hs : p.stride = 1) (hout : ¬ tapInBounds p oy ox ky kx) :
    tapContrib p A K ky kx oy ox o = 0 ∧
    kn2rowConv p A K oy ox o =
      ∑ t ∈ (range p.kh ×ˢ range p.kw) |>.filter
          (fun t => tapInBounds p oy ox t.1 t.2),
        tapContrib p A K t.1 t.2 oy ox o := by
  constructor
  · unfold tapContrib
    exact if_neg hout
  · rw [Finset.sum_filter]
    rw [Finset.sum_product]
    unfold kn2rowConv
    refine Finset.sum_congr rfl fun a _ => Finset.sum_congr rfl fun b _ => ?_
    by_cases hb : tapInBounds p oy ox a b
    · rw [if_pos hb]
    · rw [if_neg hb]
      unfold tapContrib
      exact if_neg hb

/-- Witness for `kn2row_padding_clip`: padding 1 at the top-left output
position, where tap (0,0) reads outside the unpadded input. -/
theorem kn2row_padding_clip_witness :
    tapContrib ⟨3, 3, 4, 4, 1, 1, 1, 1⟩ (fun _ _ _ => 1) (fun _ _ _ _ => 1)
        0 0 0 0 0 = 0 ∧
    kn2rowConv ⟨3, 3, 4, 4, 1, 1, 1, 1⟩ (fun _ _ _ => 1) (fun _ _ _ _ => 1)
        0 0 0 =
      ∑ t ∈ (range 3 ×ˢ range 3) |>.filter
          (fun t => tapInBounds ⟨3, 3, 4, 4, 1, 1, 1, 1⟩ 0 0 t.1 t.2),
        tapContrib ⟨3, 3, 4, 4, 1, 1, 1, 1⟩ (fun _ _ _ => 1) (fun _ _ _ _ => 1)
          t.1 t.2 0 0 0 :=
  kn2row_padding_clip ⟨3, 3, 4, 4, 1, 1, 1, 1⟩ (fun _ _ _ => 1)
    (fun _ _ _ _ => 1) 0 0 0 0 0 rfl (by decide)

/-! ## Packed Elements (spec §3 "Packed Element", header line 27
`kn2row_input_elem_t = QUANTIZED_PACKED`)

Modelled from the spec: a Packed Element is an unsigned word of bit-width `W`
holding `B = W / n` sub-fields of bit-width `n` (`n` = 1 or 2), each sub-field
value in `[0, 2^n)`.  The packer fills words with `b + 1` sub-fields each,
first value in the least-significant bits; the header's `QUANTIZED_PACKED`
word width is not fixed by the available sources, so the chunk size is a
parameter (`b + 1 = W / n`, e.g. 32 for `W` = 32, `n` = 1). -/

/-- Pack one chunk of sub-field values into a single word, first value in the
lowest `n` bits. -/
def packChunk (n : Nat) : List Nat → Nat
  | [] => 0
  | v :: vs => v + 2 ^ n * packChunk n vs

/-- Unpack `b` sub-fields of bit-width `n` from a word. -/
def unpackChunk (n : Nat) : Nat → Nat → List Nat
  | 0, _ => []
  | b + 1, w => w % 2 ^ n :: unpackChunk n b (w / 2 ^ n)

/-- Pack a sequence of sub-field values into Packed Elements of `b + 1`
sub-fields each. -/
def packSeq (n b : Nat) : List Nat → List Nat
  | [] => []
  | v :: vs => packChunk n (v :: vs.take b) :: packSeq n b (vs.drop b)
termination_by l => l.length
decreasing_by simp [List.length_drop]; omega

/-- Unpack a list of Packed Elements of `b + 1` sub-fields each. -/
def unpackSeq (n b : Nat) : List Nat → List Nat
  | [] => []
  | w :: ws => unpackChunk n (b + 1) w ++ unpackSeq n b ws

theorem unpackChunk_zero (n : Nat) : ∀ B, unpackChunk n B 0 = List.replicate B 0 := by
  intro B
  induction B with
  | zero => rfl
  | succ b ih =>
    rw [unpackChunk, Nat.zero_mod, Nat.zero_div, ih, List.replicate_succ]

theorem unpackChunk_packChunk (n : Nat) (vs : List Nat) :
    ∀ B, vs.length ≤ B → (∀ v ∈ vs, v < 2 ^ n) →
      unpackChunk n B (packChunk n vs) = vs ++ List.replicate (B - vs.length) 0 := by
  induction vs with
  | nil => intro B _ _; rw [packChunk, unpackChunk_zero]; rfl
  | cons v vs ih =>
    intro B hB hv
    match B, hB with
    | B' + 1, hB =>
      rw [packChunk, unpackChunk]
      have hvlt : v < 2 ^ n := hv v (List.mem_cons_self v vs)
      have hmod : (v + 2 ^ n * packChunk n vs) % 2 ^ n = v := by
        rw [Nat.add_mul_mod_self_left, Nat.mod_eq_of_lt hvlt]
      have hdiv : (v + 2 ^ n * packChunk n vs) / 2 ^ n = packChunk n vs := by
        rw [Nat.add_mul_div_left _ _ (Nat.pos_pow_of_pos n (by norm_num)),
          Nat.div_eq_of_lt hvlt, Nat.zero_add]
      rw [hmod, hdiv, ih B' (by simpa using hB) (fun u hu => hv u (List.mem_cons_of_mem v hu))]
      simp [List.length_cons]

/-- C6 helper: unpack-of-pack recovers the original sequence, read back up to
its original length (trailing sub-fields of the final partially filled word
unpack as zeros and are dropped by the `take`). -/
theorem unpackSeq_packSeq (n b : Nat) (vs : List Nat)
    (hv : ∀ v ∈ vs, v < 2 ^ n) :
    (unpackSeq n b (packSeq n b vs)).take vs.length = vs := by
  induction vs using packSeq.induct n b with
  | case1 => rfl
  | case2 v vs ih =>
    rw [packSeq, unpackSeq]
    have hchunk : (v :: vs.take b).length ≤ b + 1 := by
      simp only [List.length_cons, List.length_take]; omega
    have hvc : ∀ u ∈ v :: vs.take b, u < 2 ^ n := by
      intro u hu
      rcases List.mem_cons.mp hu with h | h
      · exact h ▸ hv v (List.mem_cons_self v vs)
      · exact hv u (List.mem_cons_of_mem v (List.mem_of_mem_take h))
    rw [unpackChunk_packChunk n (v :: vs.take b) (b + 1) hchunk hvc]
    have ihv : (unpackSeq n b (packSeq n b (vs.drop b))).take (vs.drop b).length
        = vs.drop b :=
      ih (fun u hu => hv u (List.mem_cons_of_mem v (List.mem_of_mem_drop hu)))
    by_cases hle : vs.length ≤ b
    · have htake : vs.take b = vs := List.take_of_length_le hle
      have hdrop : vs.drop b = [] := List.drop_eq_nil_of_le hle
      have hps : packSeq n b ([] : List Nat) = [] := by rw [packSeq]
      rw [htake, hdrop, hps]
      rw [show unpackSeq n b ([] : List Nat) = [] from rfl, List.append_nil]
      exact List.take_left' rfl
    · push_neg at hle
      have hlen : (v :: vs.take b).length = b + 1 := by
        simp only [List.length_cons, List.length_take]; omega
      rw [hlen]
      simp only [Nat.sub_self, List.replicate_zero, List.append_nil]
      have hsplit : (v :: vs).length = (v :: vs.take b).length + (vs.length - b) := by
        simp only [List.length_cons, List.length_take]; omega
      rw [hsplit, List.take_append]
      have hdl : (vs.drop b).length = vs.length - b := by
        simp [List.length_drop]
      rw [← hdl, ihv, List.cons_append, List.take_append_drop]

/-- C6: for each supported sub-field bit-width `n` (1 or 2) and every sequence
of values in `[0, 2^n)`, packing into Packed Elements and unpacking
reproduces the original sequence exactly. -/
theorem pack_unpack_roundtrip (n b : Nat) (vs : List Nat)
    (_hn : n = 1 ∨ n = 2) (hv : ∀ v ∈ vs, v < 2 ^ n) :
    (unpackSeq n b (packSeq n b vs)).take vs.length = vs :=
  unpackSeq_packSeq n b vs hv

/-- Witness for `pack_unpack_roundtrip`: `n` = 2 with a 16-sub-field word
(32-bit Packed Element) on a concrete sequence of five 2-bit values. -/
theorem pack_unpack_roundtrip_witness :
    (unpackSeq 2 15 (packSeq 2 15 [3, 0, 1, 2, 3])).take 5 = [3, 0, 1, 2, 3] :=
  pack_unpack_roundtrip 2 15 [3, 0, 1, 2, 3] (Or.inr rfl) (by decide)

/-! ## Kernel Layout Transform (header line 32 `quantized_ohwi_to_hwoi`,
spec §4.2)

The header declares the transform; its translation unit is not among the
sources, so the transform is modelled from the spec: buffers are flat arrays
of packed sub-field values (the transform works "at sub-field granularity so
no information is lost when source and destination differ in packing ratio"),
and the element at logical position `(o, h, w, i)` of the OHWI source is
written to logical position `(h, w, o, i)` of the HWOI destination. -/

/-- Flat sub-field offset of logical `(o, h, w, i)` in OHWI layout with
extents `O, H, W, I`. -/
def encOHWI (H W I o h w i : Nat) : Nat :=
  ((o * H + h) * W + w) * I + i

/-- Flat sub-field offset of logical `(h, w, o, i)` in HWOI layout with
extents `H, W, O, I`. -/
def encHWOI (W O I h w o i : Nat) : Nat :=
  ((h * W + w) * O + o) * I + i

/-- Modelled from the spec: `quantized_ohwi_to_hwoi` — the kernel layout
transform from converter-native OHWI to algorithm-native HWOI.  `src` is the
source buffer (flat sub-field offset → sub-field value); the result is the
destination buffer, each destination offset decoded as `(h, w, o, i)` and
filled from the source's `(o, h, w, i)`. -/
def quantized_ohwi_to_hwoi (O H W I : Nat) (src : Nat → Nat) : Nat → Nat :=
  fun j =>
    src (encOHWI H W I (j / I % O) (j / I / O / W) (j / I / O % W) (j % I))

/-- Modelled from the spec: the inverse transform (HWOI back to OHWI), "used
only in tests" (spec §8 "Layout transform round-trip"). -/
def quantized_hwoi_to_ohwi (O H W I : Nat) (src : Nat → Nat) : Nat → Nat :=
  fun j =>
    src (encHWOI W O I (j / I / W % H) (j / I % W) (j / I / W / H) (j % I))

theorem encStep_mod (a i I : Nat) (hi : i < I) : (a * I + i) % I = i := by
  rw [Nat.mul_comm, Nat.mul_add_mod, Nat.mod_eq_of_lt hi]

theorem encStep_div (a i I : Nat) (hi : i < I) : (a * I + i) / I = a := by
  have hI : 0 < I := Nat.lt_of_le_of_lt (Nat.zero_le i) hi
  rw [Nat.mul_comm, Nat.mul_add_div hI, Nat.div_eq_of_lt hi, Nat.add_zero]

/-- Shared helper: the transform reads the destination position
`(h, w, o, i)` from source position `(o, h, w, i)`. -/
theorem ohwi_to_hwoi_apply_enc (O H W I : Nat) (src : Nat → Nat)
    (o h w i : Nat) (ho : o < O) (hw : w < W) (hi : i < I) :
    quantized_ohwi_to_hwoi O H W I src (encHWOI W O I h w o i) =
      src (encOHWI H W I o h w i) := by
  unfold quantized_ohwi_to_hwoi encHWOI
  rw [encStep_mod _ _ _ hi, encStep_div _ _ _ hi,
    encStep_mod _ _ _ ho, encStep_div _ _ _ ho,
    encStep_mod _ _ _ hw, encStep_div _ _ _ hw]

/-- C4: for agreeing extents, the layout transform places every packed
sub-field value of the OHWI source at logical `(o, h, w, i)` into the HWOI
destination at logical `(h, w, o, i)`, bit-exactly. -/
theorem ohwi_to_hwoi_subfield_exact (O H W I : Nat) (src : Nat → Nat)
    (o h w i : Nat) (ho : o < O) (_hh : h < H) (hw : w < W) (hi : i < I) :
    quantized_ohwi_to_hwoi O H W I src (encHWOI W O I h w o i) =
      src (encOHWI H W I o h w i) :=
  ohwi_to_hwoi_apply_enc O H W I src o h w i ho hw hi

/-- Witness for `ohwi_to_hwoi_subfield_exact` at concrete extents
`O=4, H=3, W=3, I=2` and position `(o,h,w,i) = (2,1,2,1)` over an arbitrary
concrete source buffer. -/
theorem ohwi_to_hwoi_subfield_exact_witness :
    quantized_ohwi_to_hwoi 4 3 3 2 (fun j => j * j % 7)
        (encHWOI 3 4 2 1 2 2 1) =
      (fun j => j * j % 7) (encOHWI 3 3 2 2 1 2 1) :=
  ohwi_to_hwoi_subfield_exact 4 3 3 2 (fun j => j * j % 7) 2 1 2 1
    (by decide) (by decide) (by decide) (by decide)

/-- C5: applying the OHWI→HWOI transform and then its inverse reproduces the
original buffer bit-for-bit at every in-range flat offset. -/
theorem ohwi_hwoi_roundtrip (O H W I : Nat) (src : Nat → Nat) (j : Nat)
    (hj : j < O * H * W * I) :
    quantized_hwoi_to_ohwi O H W I (quantized_ohwi_to_hwoi O H W I src) j
      = src j := by
  have hI : 0 < I := by
    rcases Nat.eq_zero_or_pos I with h | h
    · subst h; simp at hj
    · exact h
  have hW : 0 < W := by
    rcases Nat.eq_zero_or_pos W with h | h
    · subst h; simp at hj
    · exact h
  have hH : 0 < H := by
    rcases Nat.eq_zero_or_pos H with h | h
    · subst h; simp at hj
    · exact h
  have hi : j % I < I := Nat.mod_lt j hI
  have hw : j / I % W < W := Nat.mod_lt _ hW
  have hh : j / I / W % H < H := Nat.mod_lt _ hH
  have ho : j / I / W / H < O := by
    rw [Nat.div_lt_iff_lt_mul hH, Nat.div_lt_iff_lt_mul hW,
      Nat.div_lt_iff_lt_mul hI]
    calc j < O * H * W * I := hj
    _ = O * H * W * I := rfl
  show quantized_ohwi_to_hwoi O H W I src
      (encHWOI W O I (j / I / W % H) (j / I % W) (j / I / W / H) (j % I))
    = src j
  rw [ohwi_to_hwoi_apply_enc O H W I src _ _ _ _ ho hw hi]
  have s1 : j / I / W / H * H + j / I / W % H = j / I / W := by
    rw [Nat.mul_comm]; exact Nat.div_add_mod _ _
  have s2 : j / I / W * W + j / I % W = j / I := by
    rw [Nat.mul_comm]; exact Nat.div_add_mod _ _
  have s3 : j / I * I + j % I = j := by
    rw [Nat.mul_comm]; exact Nat.div_add_mod _ _
  unfold encOHWI
  rw [s1, s2, s3]

/-- Witness for `ohwi_hwoi_roundtrip` at concrete extents and offset. -/
theorem ohwi_hwoi_roundtrip_witness :
    quantized_hwoi_to_ohwi 4 3 3 2
        (quantized_ohwi_to_hwoi 4 3 3 2 (fun j => (3 * j + 1) % 11)) 37
      = (fun j => (3 * j + 1) % 11) 37 :=
  ohwi_hwoi_roundtrip 4 3 3 2 (fun j => (3 * j + 1) % 11) 37 (by decide)

/-! ## Machine accumulator (spec §4.3 accumulation, §7 overflow design)

Modelled from the spec: accumulation uses a `wacc`-bit integer accumulator;
each machine addition reduces modulo `2 ^ wacc`.  The spec's design rule is
that the accumulator width is chosen from the maximum input-channel count and
bit-widths so that overflow can never occur. -/

/-- A `w`-bit machine accumulation of `f 0, …, f (n-1)`: every addition is
reduced modulo `2 ^ w`. -/
def machineSum (w n : Nat) (f : Nat → Nat) : Nat :=
  (List.range n).foldl (fun acc i => (acc + f i) % 2 ^ w) 0

/-- Modelled from the spec: the input-channel reduction of one pointwise tap
as performed in the `wacc`-bit accumulator. -/
def machinePointwise (wacc : Nat) (p : ConvParams) (A : Nat → Nat → Nat → Nat)
    (K : Nat → Nat → Nat → Nat → Nat) (ky kx y x o : Nat) : Nat :=
  machineSum wacc p.ic fun c => A y x c * K ky kx o c

/-- Modelled from the spec: one tap's machine contribution, clipped at the
input bounds exactly as in `tapContrib`. -/
def machineTapContrib (wacc : Nat) (p : ConvParams)
    (A : Nat → Nat → Nat → Nat) (K : Nat → Nat → Nat → Nat → Nat)
    (ky kx oy ox o : Nat) : Nat :=
  if tapInBounds p oy ox ky kx then
    machinePointwise wacc p A K ky kx (srcY p oy ky) (srcX p ox kx) o
  else 0

/-- Modelled from the spec: the whole kn2row accumulation performed in the
`wacc`-bit accumulator — the `kh·kw` tap feature maps are accumulated one
after the other on top of the per-tap input-channel reductions. -/
def machineKn2row (wacc : Nat) (p : ConvParams) (A : Nat → Nat → Nat → Nat)
    (K : Nat → Nat → Nat → Nat → Nat) (oy ox o : Nat) : Nat :=
  machineSum wacc p.kh fun ky =>
    machineSum wacc p.kw fun kx => machineTapContrib wacc p A K ky kx oy ox o

theorem foldl_addmod_eq (w : Nat) (f : Nat → Nat) :
    ∀ (n a : Nat), a + ∑ i ∈ range n, f i < 2 ^ w →
      (List.range n).foldl (fun acc i => (acc + f i) % 2 ^ w) a
        = a + ∑ i ∈ range n, f i := by
  intro n
  induction n with
  | zero => intro a h; simp
  | succ m ih =>
    intro a h
    rw [List.range_succ, List.foldl_append]
    rw [Finset.sum_range_succ] at h ⊢
    have hm : a + ∑ i ∈ range m, f i < 2 ^ w := by omega
    rw [ih a hm]
    simp only [List.foldl_cons, List.foldl_nil]
    rw [Nat.mod_eq_of_lt (by omega)]
    omega

/-- A machine accumulation whose exact total fits in the accumulator equals
the exact sum (so no intermediate addition ever wraps). -/
theorem machineSum_eq_sum (w n : Nat) (f : Nat → Nat)
    (h : ∑ i ∈ range n, f i < 2 ^ w) :
    machineSum w n f = ∑ i ∈ range n, f i := by
  have h0 : (0 : Nat) + ∑ i ∈ range n, f i < 2 ^ w := by simpa using h
  simpa using foldl_addmod_eq w f n 0 h0

theorem machineSum_congr (w n : Nat) (f g : Nat → Nat)
    (h : ∀ i < n, f i = g i) : machineSum w n f = machineSum w n g := by
  unfold machineSum
  suffices hgen : ∀ l : List Nat, (∀ i ∈ l, f i = g i) → ∀ a : Nat,
      l.foldl (fun acc i => (acc + f i) % 2 ^ w) a
        = l.foldl (fun acc i => (acc + g i) % 2 ^ w) a by
    exact hgen (List.range n) (fun i hi => h i (List.mem_range.mp hi)) 0
  intro l
  induction l with
  | nil => intro _ _; rfl
  | cons x xs ih =>
    intro hl a
    simp only [List.foldl_cons]
    rw [hl x (List.mem_cons_self x xs)]
    exact ih (fun i hi => hl i (List.mem_cons_of_mem x hi)) _

theorem sum_range_le_card_mul (n B : Nat) (f : Nat → Nat)
    (h : ∀ i < n, f i ≤ B) : ∑ i ∈ range n, f i ≤ n * B := by
  calc ∑ i ∈ range n, f i ≤ ∑ _i ∈ range n, B :=
    Finset.sum_le_sum fun i hi => h i (Finset.mem_range.mp hi)
  _ = n * B := by rw [Finset.sum_const, Finset.card_range, smul_eq_mul]

/-- C7: when the accumulator width is chosen from the kernel extent,
input-channel count and the activation/weight bit-widths so that the maximal
possible accumulation fits, the machine kn2row result equals the exact
unbounded-integer kn2row result — overflow never occurs, at any intermediate
step of the input-channel reduction or the tap accumulation. -/
theorem machine_kn2row_no_overflow (wacc na nk : Nat) (p : ConvParams)
    (A : Nat → Nat → Nat → Nat) (K : Nat → Nat → Nat → Nat → Nat)
    (oy ox o : Nat)
    (hA : ∀ y x c, A y x c < 2 ^ na)
    (hK : ∀ ky kx o' c, K ky kx o' c < 2 ^ nk)
    (ho : o < p.oc)
    (hacc : p.kh * (p.kw * (p.ic * ((2 ^ na - 1) * (2 ^ nk - 1)))) < 2 ^ wacc) :
    machineKn2row wacc p A K oy ox o = kn2rowConv p A K oy ox o := by
  have hpw : ∀ ky kx y x, pointwise p A K ky kx y x o
      ≤ p.ic * ((2 ^ na - 1) * (2 ^ nk - 1)) := by
    intro ky kx y x
    exact sum_range_le_card_mul _ _ _ fun c _ =>
      Nat.mul_le_mul (Nat.le_pred_of_lt (hA y x c)) (Nat.le_pred_of_lt (hK ky kx o c))
  have htap : ∀ ky kx, tapContrib p A K ky kx oy ox o
      ≤ p.ic * ((2 ^ na - 1) * (2 ^ nk - 1)) := by
    intro ky kx
    rw [tapContrib_eq_pointwise p A K ky kx oy ox o ho]
    split
    · exact hpw _ _ _ _
    · exact Nat.zero_le _
  have hmt : ∀ ky, ky < p.kh → ∀ kx, kx < p.kw →
      machineTapContrib wacc p A K ky kx oy ox o
        = tapContrib p A K ky kx oy ox o := by
    intro ky hky kx hkx
    rw [tapContrib_eq_pointwise p A K ky kx oy ox o ho]
    unfold machineTapContrib
    split
    · show machinePointwise wacc p A K ky kx _ _ o = _
      unfold machinePointwise
      rw [machineSum_eq_sum]
      · rfl
      · refine Nat.lt_of_le_of_lt ?_ hacc
        refine Nat.le_trans (hpw ky kx _ _) ?_
        calc p.ic * ((2 ^ na - 1) * (2 ^ nk - 1))
            ≤ p.kw * (p.ic * ((2 ^ na - 1) * (2 ^ nk - 1))) :=
              Nat.le_mul_of_pos_left _ (Nat.lt_of_le_of_lt (Nat.zero_le kx) hkx)
        _ ≤ p.kh * (p.kw * (p.ic * ((2 ^ na - 1) * (2 ^ nk - 1)))) :=
              Nat.le_mul_of_pos_left _ (Nat.lt_of_le_of_lt (Nat.zero_le ky) hky)
    · rfl
  unfold machineKn2row
  have hinner : ∀ ky, ky < p.kh →
      machineSum wacc p.kw (fun kx => machineTapContrib wacc p A K ky kx oy ox o)
        = ∑ kx ∈ range p.kw, tapContrib p A K ky kx oy ox o := by
    intro ky hky
    rw [machineSum_congr wacc p.kw _ _ (fun kx hkx => hmt ky hky kx hkx)]
    apply machineSum_eq_sum
    refine Nat.lt_of_le_of_lt ?_ hacc
    refine Nat.le_trans (sum_range_le_card_mul p.kw _ _ fun kx _ => htap ky kx) ?_
    exact Nat.le_mul_of_pos_left _ (Nat.lt_of_le_of_lt (Nat.zero_le ky) hky)
  rw [machineSum_congr wacc p.kh _ _ hinner]
  rw [machineSum_eq_sum]
  · rfl
  · refine Nat.lt_of_le_of_lt ?_ hacc
    exact sum_range_le_card_mul p.kh _ _ fun ky _ =>
      sum_range_le_card_mul p.kw _ _ fun kx _ => htap ky kx

/-- Witness for `machine_kn2row_no_overflow`: a 16-bit accumulator with 2-bit
activations, 1-bit weights, a 3x3 kernel, two input channels and padding 1. -/
theorem machine_kn2row_no_overflow_witness :
    machineKn2row 16 ⟨3, 3, 4, 4, 2, 2, 1, 1⟩ (fun y x c => (y + x + c) % 4)
        (fun ky kx o c => (ky + kx + o + c) % 2) 1 1 1 =
      kn2rowConv ⟨3, 3, 4, 4, 2, 2, 1, 1⟩ (fun y x c => (y + x + c) % 4)
        (fun ky kx o c => (ky + kx + o + c) % 2) 1 1 1 :=
  machine_kn2row_no_overflow 16 2 1 ⟨3, 3, 4, 4, 2, 2, 1, 1⟩
    (fun y x c => (y + x + c) % 4) (fun ky kx o c => (ky + kx + o + c) % 2)
    1 1 1 (fun y x c => Nat.mod_lt _ (by decide))
    (fun ky kx o c => Nat.mod_lt _ (by decide)) (by decide) (by decide)

/-! ## Scaling factors (src/unnamed/part_000, spec §4.5) -/

/-- Quantizer operator kinds as the scaling-factor template branches on
`conv.quantizer.op_type` (src/unnamed/part_000 lines 25 and 29). -/
inductive QuantizerKind where
  | binaryMeanScaling
  | binaryChannelWiseMeanScaling
  | other (opType : String)
deriving DecidableEq, Repr

/-- One quantized convolution operator as seen by the scaling-factor
template: its generated constant name, its quantizer kind and its
output-channel count. -/
structure QuantizedConvInfo where
  name : String
  quantizer : QuantizerKind
  channels : Nat

/-- A generated scaling-factor declaration: `scalar` stands for
`extern T_FLOAT name;`, `array` for `extern T_FLOAT name[channels];`, and
`notImplementedToken` for the bare token
`OtherQuantizerScalingFactorNotImplemented` the template emits for any other
quantizer kind — not a valid declaration, so the generated artifact fails to
build. -/
inductive ScalingFactorDecl where
  | scalar (name : String)
  | array (name : String) (channels : Nat)
  | notImplementedToken
deriving DecidableEq, Repr

/-- The scaling-factor generation step for one quantized convolution,
following the template branches of src/unnamed/part_000 lines 23–39. -/
def scaling_factors_decl (c : QuantizedConvInfo) : ScalingFactorDecl :=
  match c.quantizer with
  | .binaryMeanScaling => .scalar c.name
  | .binaryChannelWiseMeanScaling => .array c.name c.channels
  | .other _ => .notImplementedToken

/-- Whether an artifact containing the generated declaration compiles: the
emitted `OtherQuantizerScalingFactorNotImplemented` token does not. -/
def ScalingFactorDecl.buildable : ScalingFactorDecl → Bool
  | .notImplementedToken => false
  | _ => true

/-- C8: the generation step produces exactly one scalar constant for the
per-tensor mean-scaling quantizer, a fixed-length per-output-channel array
for the per-channel mean-scaling quantizer, and for every other quantizer
kind emits an artifact that fails to build — never a runtime fallback. -/
theorem scaling_factors_shape_or_build_error (c : QuantizedConvInfo) :
    (c.quantizer = QuantizerKind.binaryMeanScaling ∧
      scaling_factors_decl c = ScalingFactorDecl.scalar c.name) ∨
    (c.quantizer = QuantizerKind.binaryChannelWiseMeanScaling ∧
      scaling_factors_decl c = ScalingFactorDecl.array c.name c.channels) ∨
    (∃ s, c.quantizer = QuantizerKind.other s ∧
      (scaling_factors_decl c).buildable = false) := by
  rcases hq : c.quantizer with _ | _ | s
  · exact Or.inl ⟨rfl, by unfold scaling_factors_decl; rw [hq]⟩
  · exact Or.inr (Or.inl ⟨rfl, by unfold scaling_factors_decl; rw [hq]⟩)
  · refine Or.inr (Or.inr ⟨s, rfl, ?_⟩)
    unfold scaling_factors_decl
    rw [hq]
    rfl

/-! ## Scale application linearity (spec §4.5 runtime contract, §8 "Scale
linearity")

Modelled from the spec: applying a per-tensor scalar scale is "a simple
multiply of the engine's integer accumulator output".  The scaling factor is
modelled as an exact rational, matching the spec's exact numeric semantics
(spec §4.3: "no rounding until an external dequantization step"). -/

/-- Apply a per-tensor scalar scaling factor to an integer accumulator
value. -/
def applyScale (s : ℚ) (v : Nat) : ℚ := s * (v : ℚ)

/-- C9: scaling the final raw accumulator output equals scaling each of the
`kh·kw` pointwise partial sums individually and then accumulating. -/
theorem scale_linear (s : ℚ) (p : ConvParams) (A : Nat → Nat → Nat → Nat)
    (K : Nat → Nat → Nat → Nat → Nat) (oy ox o : Nat) :
    applyScale s (kn2rowConv p A K oy ox o) =
      ∑ ky ∈ range p.kh, ∑ kx ∈ range p.kw,
        applyScale s (tapContrib p A K ky kx oy ox o) := by
  unfold applyScale kn2rowConv
  push_cast
  rw [Finset.mul_sum]
  exact Finset.sum_congr rfl fun ky _ => Finset.mul_sum _ _ _

/-! ## Frame effect (header lines 32–37)

Modelled from the spec: both entry points receive their activation and
kernel buffers through const views and write only the caller-designated
output/destination buffer.  The state-passing embedding makes each output
element write explicit; the theorems show the input-side buffers are
untouched. -/

/-- Mutable buffers of one kernel-layout-transform invocation. -/
structure KernelTransformState where
  src : List Nat
  dst : List Nat

/-- Modelled from the spec: the state-passing form of
`quantized_ohwi_to_hwoi` — every destination offset is written in turn from
the (const) source buffer. -/
def runOhwiToHwoi (O H W I : Nat) (s : KernelTransformState) :
    KernelTransformState :=
  (List.range (H * W * O * I)).foldl
    (fun st j =>
      { st with dst := (st.dst.set j
          (quantized_ohwi_to_hwoi O H W I (fun k => st.src.getD k 0) j)) }) s

/-- Mutable buffers of one kn2row convolution invocation. -/
structure ConvBuffers where
  input : List Nat
  kernel : List Nat
  output : List Nat

/-- Modelled from the spec: the state-passing form of
`QuantizedConv2DKn2Row` — every output offset is written in turn, reading the
(const) activation and kernel buffers through their layout views. -/
def runKn2Row (p : ConvParams) (s : ConvBuffers) : ConvBuffers :=
  (List.range (p.outH * p.outW * p.oc)).foldl
    (fun st j =>
      { st with output := (st.output.set j
          (kn2rowConv p
            (fun y x c => st.input.getD (encYXO p.iw p.ic y x c) 0)
            (fun ky kx o c => st.kernel.getD (encHWOI p.kw p.oc p.ic ky kx o c) 0)
            (j / (p.outW * p.oc)) (j / p.oc % p.outW) (j % p.oc))) }) s

theorem foldl_preserves {α : Type} (proj : α → List Nat) (f : α → Nat → α)
    (l : List Nat) (s : α) (h : ∀ st j, proj (f st j) = proj st) :
    proj (l.foldl f s) = proj s := by
  induction l generalizing s with
  | nil => rfl
  | cons x xs ih => rw [List.foldl_cons, ih (f s x), h]

/-- C10: a kn2row convolution invocation and a kernel layout transform
invocation leave their activation/source-kernel buffers bit-for-bit
unchanged; only the designated output/destination buffer is written. -/
theorem conv_and_transform_frame (p : ConvParams) (s : ConvBuffers)
    (O H W I : Nat) (t : KernelTransformState) :
    (runKn2Row p s).input = s.input ∧
    (runKn2Row p s).kernel = s.kernel ∧
    (runOhwiToHwoi O H W I t).src = t.src := by
  refine ⟨?_, ?_, ?_⟩
  · unfold runKn2Row
    exact foldl_preserves ConvBuffers.input _ _ _ (fun st j => rfl)
  · unfold runKn2Row
    exact foldl_preserves ConvBuffers.kernel _ _ _ (fun st j => rfl)
  · unfold runOhwiToHwoi
    exact foldl_preserves KernelTransformState.src _ _ _ (fun st j => rfl)

end Blueoil
